import Mathlib

/-!
Shallow embedding of the core of `src/main.rs` (pix image viewer):
tile-key encoding, the resolution-pyramid metadata model with `nearest`,
and the scheduling loops `load_cache`, `make_thumbs`, `recv_thumbs`.
Machine integers (u8/u16/u32/u64/usize) are modelled as `Nat`; the bounds
the Rust types impose appear as hypotheses on the theorems. Rust panics
(`unwrap`, out-of-range indexing) are modelled by `Option.none` results.
-/

namespace Pix

/-! ## Definitions: key encoding -/

/-- Embedding of `TileRef::new(size: Pow2, index: u64, chunk: u16)`:
`(chunk as u64) | ((index % (1u64 << 40)) << 16) | ((size.0 as u64) << 56)`.
`size` is the `u8` payload of `Pow2` (so `size < 256` at every call site) and
`chunk < 2^16` by its `u16` type. -/
def tileRefNew (size index chunk : Nat) : Nat :=
  chunk ||| ((index % (1 <<< 40)) <<< 16) ||| (size <<< 56)

/-- Embedding of `TileRef::deconstruct`, returning `(size, index, chunk)`:
the three mask-and-shift extractions of the source, in source order. -/
def tileRefDeconstruct (t : Nat) : Nat × Nat × Nat :=
  ((t &&& 0xFF00000000000000) >>> 56,
   (t &&& 0x00FFFFFFFFFF0000) >>> 16,
   t &&& 0x000000000000FFFF)

/-! ## Definitions: resolution pyramid and `Metadata::nearest` -/

/-- Leading-zero count of a `u32` value (`u32::leading_zeros`): `32` minus the
bit length, where the bit length of `n < 2^32` is the number of exponents
`k < 32` with `2^k ≤ n`. -/
def u32Zeros (n : Nat) : Nat :=
  32 - ((List.range 32).filter (fun k => 2 ^ k ≤ n)).length

/-- Embedding of `u32::next_power_of_two`: the smallest power of two that is
at least `n` (with result `1` for `n ≤ 1`), valid for `n ≤ 2^31`. -/
def nextPow2 (n : Nat) : Nat :=
  2 ^ ((List.range 32).filter (fun k => 2 ^ k < n)).length

/-- Embedding of `Thumb { img_size: [u32; 2], tile_refs: Vec<TileRef> }`. -/
structure Thumb where
  img_size : Nat × Nat
  tile_refs : List Nat
deriving DecidableEq

instance : Inhabited Thumb := ⟨⟨(0, 0), []⟩⟩

/-- `Thumb::max_dimension`: `max(w, h)`. -/
def Thumb.max_dimension (t : Thumb) : Nat := max t.img_size.1 t.img_size.2

/-- `Thumb::size`: `max_dimension().next_power_of_two()`. -/
def Thumb.size (t : Thumb) : Nat := nextPow2 t.max_dimension

/-- Embedding of `Metadata { thumbs: Vec<Thumb> }`. -/
structure Metadata where
  thumbs : List Thumb
deriving DecidableEq

/-- Log2-space distance used by `Metadata::nearest`: absolute difference of
`u32` leading-zero counts, computed in `i16` in the source (no overflow since
both counts are at most 32). -/
def lzDist (target_size size : Nat) : Nat :=
  ((u32Zeros target_size : Int) - (u32Zeros size : Int)).natAbs

/-- Scan loop of `Metadata::nearest`: walks the thumbs keeping
`found = Some((best_dist, best_index))`, replacing only on a strictly
smaller distance. `i` is the index of the head of `thumbs`. -/
def nearestGo (target_size : Nat) (thumbs : List Thumb) (i : Nat)
    (found : Option (Nat × Nat)) : Option (Nat × Nat) :=
  match thumbs with
  | [] => found
  | thumb :: rest =>
    let dist := lzDist target_size thumb.size
    let found2 :=
      match found with
      | Option.some (found_dist, found_i) =>
        if dist < found_dist then Option.some (dist, i)
        else Option.some (found_dist, found_i)
      | Option.none => Option.some (dist, i)
    nearestGo target_size rest (i + 1) found2

/-- Embedding of `Metadata::nearest(target_size)`. The source ends with
`found.unwrap()`, which panics when `thumbs` is empty; the panic is modelled
by `Option.none`. -/
def Metadata.nearest (m : Metadata) (target_size : Nat) : Option Nat :=
  (nearestGo target_size m.thumbs 0 Option.none).map Prod.snd

/-! ## Definitions: image records and tile cache loader (`App::load_cache`) -/

/-- Embedding of `MetadataState { Missing, Some(Metadata), Errored }`
(the `Some` variant is named `present` here to avoid clashing with
`Option.some`). -/
inductive MetadataState where
  | missing
  | present (m : Metadata)
  | errored
deriving DecidableEq

/-- Fields of `image::Image` used by the scheduler. The image module is not
under `src/`; per the spec an ImageRecord carries its metadata state and
`loaded_level: Option<index>` (called `size` in `load_cache`, read as
`image.size.unwrap_or(0)` and written as `self.images[i].size = Some(..)`). -/
structure Image where
  metadata : MetadataState
  size : Option Nat
deriving DecidableEq

instance : Inhabited Image := ⟨⟨MetadataState.missing, Option.none⟩⟩

/-- Environment of one `load_cache` call: `App::target_size()` (a u32 derived
from the viewport zoom) and the band-1 level-of-detail shift
`max(0.0, visible_ratio - 1.0).floor() as usize`, modelled as an abstract
function of the image index since it is float viewport math. -/
structure LoadEnv where
  target_size : Nat
  shift : Nat → Nat

/-- Shift actually applied to image `i` in band `p`: `0` for the visible
band (`p == 0`), the LOD shift otherwise. -/
def LoadEnv.shiftAt (env : LoadEnv) (p i : Nat) : Nat :=
  if p = 0 then 0 else env.shift i

/-- Tile-loading loop of `load_cache` over one level's `tile_refs`.
Already-cached refs are skipped (`self.tiles.contains_key`); before each
actual fetch the stopwatch is consulted. The 10 ms wall-clock deadline is
modelled by `fuel`, the number of tile fetches the deadline still allows:
`stopwatch.done()` holds exactly when `fuel = 0` and each fetch consumes one
unit. Returns `(cache, fuel, aborted)`. -/
def loadTiles (tiles : Finset Nat) (fuel : Nat) :
    List Nat → Finset Nat × Nat × Bool
  | [] => (tiles, fuel, false)
  | r :: rs =>
    if r ∈ tiles then loadTiles tiles fuel rs
    else
      match fuel with
      | 0 => (tiles, 0, true)
      | f + 1 => loadTiles (insert r tiles) f rs

/-- Number of fetches the tile loop would perform on `refs` starting from
cache `tiles`: refs already cached (or repeated) are not fetched. -/
def missingCount (tiles : Finset Nat) : List Nat → Nat
  | [] => 0
  | r :: rs =>
    if r ∈ tiles then missingCount tiles rs
    else missingCount (insert r tiles) rs + 1

/-- Unload loop of `load_cache` (`for (j, thumb) in thumbs.iter().enumerate()`
starting at index `j`): removes every tile ref of every level other than
`new_size` from the cache. -/
def unloadGo (tiles : Finset Nat) : List Thumb → Nat → Nat → Finset Nat
  | [], _, _ => tiles
  | t :: rest, j, new_size =>
    let tiles2 := if j = new_size then tiles
      else t.tile_refs.foldl (fun acc r => acc.erase r) tiles
    unloadGo tiles2 rest (j + 1) new_size

/-- Outcome of processing one image index dequeued by `load_cache`. -/
inductive StepResult where
  | toThumb
  | dropped
  | settled
  | deadline (tiles : Finset Nat)
  | stepped (tiles : Finset Nat) (fuel : Nat) (new_size : Nat)
deriving DecidableEq

/-- `image.size.unwrap_or(0)`: the currently loaded level index of image `i`,
an absent level read as 0. -/
def currentSize (images : List Image) (i : Nat) : Nat :=
  (images.getD i default).size.getD 0

/-- Progressive-resizing step of `load_cache`
(`match new_size.cmp(&current_size)`): one level down on `Less`, one level up
on `Greater` (the `Equal` case is handled by the caller). -/
def stepTowards (new_size current_size : Nat) : Nat :=
  if new_size < current_size then current_size - 1 else current_size + 1

/-- Body of the `load_cache` loop for one dequeued image `i`: defer `Missing`
metadata to the thumbnail queue, drop `Errored`, compute the target level via
`nearest(target_size >> shift)`, compare to `image.size.unwrap_or(0)`
(`continue` on equality), step one level toward the target, load that level's
missing tiles under the deadline, and on completion evict all other levels'
tiles. Panics (`nearest` unwrap on empty thumbs, `thumbs[new_size]` indexing)
are `Option.none`. -/
def processImage (env : LoadEnv) (p : Nat) (images : List Image)
    (tiles : Finset Nat) (fuel : Nat) (i : Nat) : Option StepResult :=
  match (images.getD i default).metadata with
  | MetadataState.missing => Option.some StepResult.toThumb
  | MetadataState.errored => Option.some StepResult.dropped
  | MetadataState.present metadata =>
    match metadata.nearest (env.target_size >>> env.shiftAt p i) with
    | Option.none => Option.none
    | Option.some new_size =>
      if new_size = currentSize images i then Option.some StepResult.settled
      else
        match metadata.thumbs[stepTowards new_size (currentSize images i)]? with
        | Option.none => Option.none
        | Option.some thumb =>
          match loadTiles tiles fuel thumb.tile_refs with
          | (tiles2, _, true) => Option.some (StepResult.deadline tiles2)
          | (tiles2, fuel2, false) =>
            Option.some (StepResult.stepped
              (unloadGo tiles2 metadata.thumbs 0
                (stepTowards new_size (currentSize images i)))
              fuel2 (stepTowards new_size (currentSize images i)))

/-- State touched by `load_cache`: the image records, the tile cache (keys
only — the texture values are irrelevant to the claims), both cache queues,
both thumbnail queues, the remaining stopwatch budget, and a ghost `log`
recording each completed level transition `(image, new_level)` in order. -/
structure LoadState where
  images : List Image
  tiles : Finset Nat
  cache0 : List Nat
  cache1 : List Nat
  thumb0 : List Nat
  thumb1 : List Nat
  fuel : Nat
  log : List (Nat × Nat)
deriving DecidableEq

/-- Cache queue of priority band `p` (`cache_todo[p]`). -/
def LoadState.queue (st : LoadState) (p : Nat) : List Nat :=
  if p = 0 then st.cache0 else st.cache1

/-- Replace the cache queue of band `p`. -/
def LoadState.setQueue (st : LoadState) (p : Nat) (q : List Nat) : LoadState :=
  if p = 0 then { st with cache0 := q } else { st with cache1 := q }

/-- `thumb_todo[p].push_back(i)`. -/
def LoadState.pushThumbBack (st : LoadState) (p i : Nat) : LoadState :=
  if p = 0 then { st with thumb0 := st.thumb0 ++ [i] }
  else { st with thumb1 := st.thumb1 ++ [i] }

/-- `self.images[i].size = Some(sz)`. -/
def setSize (images : List Image) (i : Nat) (sz : Nat) : List Image :=
  images.set i { images.getD i default with size := Option.some sz }

/-- Result of the band loop: queue drained (`ok`), stopwatch deadline hit
(`deadline`, the whole loader returned), or the model's iteration bound was
exhausted (`fuelOut`, an artifact — theorems supply a large enough bound). -/
inductive RunOut where
  | ok (st : LoadState)
  | deadline (st : LoadState)
  | fuelOut (st : LoadState)
deriving DecidableEq

/-- The `while let Some(i) = cache_todo[p].pop_front()` loop of `load_cache`
for band `p`. On a deadline the image is pushed back to the front of its
queue (pop followed by `push_front` restores the original queue, hence
`{ st with tiles := tiles2 }`) and the loader returns; a completed step
records the new level and requeues the image at the back. `Option.none`
models a panic. -/
def runBand (env : LoadEnv) (p : Nat) : Nat → LoadState → Option RunOut
  | 0, st => Option.some (RunOut.fuelOut st)
  | iters + 1, st =>
    match st.queue p with
    | [] => Option.some (RunOut.ok st)
    | i :: rest =>
      match processImage env p st.images st.tiles st.fuel i with
      | Option.none => Option.none
      | Option.some StepResult.toThumb =>
        runBand env p iters ((st.setQueue p rest).pushThumbBack p i)
      | Option.some StepResult.dropped => runBand env p iters (st.setQueue p rest)
      | Option.some StepResult.settled => runBand env p iters (st.setQueue p rest)
      | Option.some (StepResult.deadline tiles2) =>
        Option.some (RunOut.deadline { st with tiles := tiles2 })
      | Option.some (StepResult.stepped tiles2 fuel2 ns) =>
        runBand env p iters
          { st.setQueue p (rest ++ [i]) with
              images := setSize st.images i ns,
              tiles := tiles2,
              fuel := fuel2,
              log := st.log ++ [(i, ns)] }

/-- `App::load_cache`: the visible band 0 first, then band 1; a deadline in
band 0 returns without touching band 1. -/
def loadCache (env : LoadEnv) (iters : Nat) (st : LoadState) : Option RunOut :=
  match runBand env 0 iters st with
  | Option.some (RunOut.ok st1) => runBand env 1 iters st1
  | r => r

/-! ## Definitions: thumbnail pipeline (`make_thumb`, `make_thumbs`,
`recv_thumbs`) -/

/-- State touched by `make_thumbs`: image records, the outstanding-job map
(keys only), the pool size `thumb_threads`, the two thumbnail queues, and a
ghost `spawned` log of the indices a job was actually spawned for. -/
structure ThumbState where
  images : List Image
  thumb_handles : Finset Nat
  thumb_threads : Nat
  thumb0 : List Nat
  thumb1 : List Nat
  spawned : List Nat
deriving DecidableEq

/-- `App::make_thumb(i)`: return if the image is not `Missing`
(`image.is_missing()`, defined in the image module as a `Missing`-state
test) or if a job for `i` is already outstanding
(`thumb_handles.contains_key(&i)`); otherwise spawn a job (ghost-logged) and
insert its handle. -/
def makeThumb (st : ThumbState) (i : Nat) : ThumbState :=
  if (st.images.getD i default).metadata ≠ MetadataState.missing then st
  else if i ∈ st.thumb_handles then st
  else { st with
    thumb_handles := insert i st.thumb_handles,
    spawned := st.spawned ++ [i] }

/-- Inner `while let` of `make_thumbs` over one band's queue: the admission
check `thumb_handles.len() > thumb_threads` runs before each dequeue and, if
it trips, returns from the whole function. Returns the state, the remaining
queue, and whether the cap check returned early. -/
def makeThumbsGo (st : ThumbState) : List Nat → ThumbState × List Nat × Bool
  | [] => (st, [], false)
  | i :: rest =>
    if st.thumb_handles.card > st.thumb_threads then (st, i :: rest, true)
    else makeThumbsGo (makeThumb st i) rest

/-- `App::make_thumbs`: band 0 then band 1, stopping everything when the
admission cap check trips. -/
def makeThumbs (st : ThumbState) : ThumbState :=
  match makeThumbsGo st st.thumb0 with
  | (st1, q0, true) => { st1 with thumb0 := q0 }
  | (st1, q0, false) =>
    match makeThumbsGo { st1 with thumb0 := q0 } st1.thumb1 with
    | (st2, q1, _) => { st2 with thumb1 := q1 }

/-- Completion status of an outstanding thumbnail job handle as observed by
one non-blocking poll in `recv_thumbs`: still pending, finished with
metadata, or failed. -/
inductive JobPoll where
  | pending
  | ok (m : Metadata)
  | failed
deriving DecidableEq

/-- State touched by `recv_thumbs`: image records, the outstanding-job map
(a `BTreeMap`, modelled as its key-ordered association list) with each job's
poll result this tick, and the two cache queues. -/
structure RecvState where
  images : List Image
  handles : List (Nat × JobPoll)
  cache0 : List Nat
  cache1 : List Nat
deriving DecidableEq

/-- Cache queue of band `b` of a `RecvState`. -/
def RecvState.queue (st : RecvState) (b : Nat) : List Nat :=
  if b = 0 then st.cache0 else st.cache1

/-- `cache_todo[b].push_front(i)`. -/
def RecvState.pushFront (st : RecvState) (b i : Nat) : RecvState :=
  if b = 0 then { st with cache0 := i :: st.cache0 }
  else { st with cache1 := i :: st.cache1 }

/-- `self.images[i].metadata = ms`. -/
def setMetadata (images : List Image) (i : Nat) (ms : MetadataState) : List Image :=
  images.set i { images.getD i default with metadata := ms }

/-- Effect of polling one handle `(i, status)` in `recv_thumbs`: a success
pushes `i` to the front of its band (`pri(i)`, passed as a function since it
is viewport visibility) and records `Some(metadata)`; a failure records
`Errored`; a pending job does nothing. -/
def recvApply (pri : Nat → Nat) (st : RecvState) (h : Nat × JobPoll) : RecvState :=
  match h.2 with
  | JobPoll.pending => st
  | JobPoll.ok m =>
    RecvState.pushFront
      { st with images := setMetadata st.images h.1 (MetadataState.present m) }
      (pri h.1) h.1
  | JobPoll.failed => { st with images := setMetadata st.images h.1 MetadataState.errored }

/-- `App::recv_thumbs`: poll every outstanding handle once without blocking,
apply completed results, and remove completed jobs from the map (the `done`
list and the final removal loop); pending handles survive unchanged. -/
def recvThumbs (pri : Nat → Nat) (st : RecvState) : RecvState :=
  let st1 := st.handles.foldl (recvApply pri) st
  { st1 with handles := st.handles.filter (fun h => h.2 == JobPoll.pending) }

/-! ## Definitions: concrete fixtures for witnesses and counterexamples -/

/-- Metadata with level size classes 128, 512 and 2048, used by the spec's
`nearest` example. -/
def mLevels : Metadata :=
  ⟨[⟨(128, 128), [1]⟩, ⟨(512, 512), [2]⟩, ⟨(2048, 2048), [3]⟩]⟩

/-- Four-level pyramid with size classes 1, 2, 4, 8 and one tile per level. -/
def m4 : Metadata :=
  ⟨[⟨(1, 1), [10]⟩, ⟨(2, 2), [11]⟩, ⟨(4, 4), [12]⟩, ⟨(8, 8), [13]⟩]⟩

/-- Environment targeting size 8, whose nearest level in `m4` is index 3. -/
def env4 : LoadEnv := ⟨8, fun _ => 0⟩

/-- One image with metadata `m4`, nothing loaded, queued in band 0, ample
budget: its target level is 3 levels above its (absent) loaded level. -/
def st4 : LoadState :=
  ⟨[⟨MetadataState.present m4, Option.none⟩], ∅, [0], [], [], [], 100, []⟩

/-- Single-level pyramid of size class 1. -/
def m5 : Metadata := ⟨[⟨(1, 1), [10]⟩]⟩

/-- Environment targeting size 1, whose nearest level in `m5` is index 0. -/
def env5 : LoadEnv := ⟨1, fun _ => 0⟩

/-- One image with metadata `m5`, nothing loaded, queued in band 0: its
target level index is 0, the lowest. -/
def st5 : LoadState :=
  ⟨[⟨MetadataState.present m5, Option.none⟩], ∅, [0], [], [], [], 100, []⟩

/-- Same image as `st4` but with an already-expired stopwatch (no fetch
budget left). -/
def st7 : LoadState :=
  ⟨[⟨MetadataState.present m4, Option.none⟩], ∅, [0], [], [], [], 0, []⟩

/-- Loaded level of image 0 in the final state of a run that drained its
queues (`Option.none` for any other outcome). -/
def runFinalSize (r : Option RunOut) : Option (Option Nat) :=
  match r with
  | Option.some (RunOut.ok st) => Option.some (st.images.getD 0 default).size
  | _ => Option.none

/-- Ghost transition log of the final state of a run that drained its queues
(`Option.none` for any other outcome). -/
def runLog (r : Option RunOut) : Option (List (Nat × Nat)) :=
  match r with
  | Option.some (RunOut.ok st) => Option.some st.log
  | _ => Option.none

/-- Thumbnail pipeline with pool size 1, one job (index 0) already
outstanding and both indices still queued. -/
def ts8 : ThumbState :=
  ⟨[⟨MetadataState.missing, Option.none⟩, ⟨MetadataState.missing, Option.none⟩],
    {0}, 1, [0, 1], [], []⟩

/-- Three images with one completed-ok, one failed and one pending thumbnail
job outstanding. -/
def rs9 : RecvState :=
  ⟨[⟨MetadataState.missing, Option.none⟩, ⟨MetadataState.missing, Option.none⟩,
      ⟨MetadataState.missing, Option.none⟩],
    [(0, JobPoll.ok m5), (1, JobPoll.failed), (2, JobPoll.pending)], [], [7]⟩

/-- Cache-loader state whose single queued image is `Errored`. -/
def st9 : LoadState :=
  ⟨[⟨MetadataState.errored, Option.none⟩], ∅, [0], [], [], [], 5, []⟩

/-- Thumbnail-pipeline state whose single image is `Errored`. -/
def ts9 : ThumbState :=
  ⟨[⟨MetadataState.errored, Option.none⟩], ∅, 1, [], [], []⟩

/-! ## Theorems: key encoding (C1, C2) -/

/-- Disjoint bit-ranges AND to zero: a value below `2^k` shares no set bit
with a value shifted left by `k`. -/
theorem and_shl_eq_zero (a b k : Nat) (h : a < 2 ^ k) : a &&& (b <<< k) = 0 := by
  apply Nat.eq_of_testBit_eq
  intro j
  rw [Nat.testBit_and, Nat.testBit_shiftLeft, Nat.zero_testBit]
  by_cases hj : k ≤ j
  · have ha : a < 2 ^ j := lt_of_lt_of_le h (Nat.pow_le_pow_right (by norm_num) hj)
    simp [Nat.testBit_lt_two_pow ha]
  · simp [hj]

/-- Bitwise OR of numbers with no common set bit is addition. -/
theorem lor_eq_add_of_and_eq_zero :
    ∀ a b : Nat, a &&& b = 0 → a ||| b = a + b := by
  intro a
  induction a using Nat.strongRecOn with
  | ind a ih =>
    intro b hab
    rcases Nat.eq_zero_or_pos a with rfl | hpos
    · simp
    · have hdiv : a / 2 &&& b / 2 = 0 := by
        rw [← Nat.and_div_two, hab]
      have ihd : a / 2 ||| b / 2 = a / 2 + b / 2 :=
        ih (a / 2) (Nat.div_lt_self hpos (by norm_num)) (b / 2) hdiv
      have hor2 : (a ||| b) / 2 = a / 2 + b / 2 := by
        rw [Nat.or_div_two, ihd]
      have hmod_ab : ¬(a % 2 = 1 ∧ b % 2 = 1) := by
        intro hc
        have := Nat.and_mod_two_eq_one.mpr hc
        rw [hab] at this
        simp at this
      have hmod_or : (a ||| b) % 2 = 1 ↔ a % 2 = 1 ∨ b % 2 = 1 :=
        Nat.or_mod_two_eq_one
      have e1 : a ||| b = 2 * ((a ||| b) / 2) + (a ||| b) % 2 :=
        (Nat.div_add_mod (a ||| b) 2).symm ▸ by omega
      have e2 : a = 2 * (a / 2) + a % 2 := by omega
      have e3 : b = 2 * (b / 2) + b % 2 := by omega
      have ha2 : a % 2 = 0 ∨ a % 2 = 1 := by omega
      have hb2 : b % 2 = 0 ∨ b % 2 = 1 := by omega
      have hor01 : (a ||| b) % 2 = 0 ∨ (a ||| b) % 2 = 1 := by omega
      rcases ha2 with ha2 | ha2 <;> rcases hb2 with hb2 | hb2 <;> omega

/-- Closed form of the key constructor: for in-range `chunk` the three OR-ed
fields are disjoint, so the packed key is the sum
`chunk + (index mod 2^40) * 2^16 + size * 2^56`. -/
theorem tileRefNew_eq (size index chunk : Nat)
    (hc : chunk < 2 ^ 16) :
    tileRefNew size index chunk =
      chunk + (index % 2 ^ 40) * 2 ^ 16 + size * 2 ^ 56 := by
  unfold tileRefNew
  have h40 : (1 <<< 40) = (2 ^ 40 : Nat) := by norm_num [Nat.shiftLeft_eq]
  rw [h40]
  have hlow : chunk ||| ((index % 2 ^ 40) <<< 16) =
      chunk + (index % 2 ^ 40) <<< 16 :=
    lor_eq_add_of_and_eq_zero _ _ (and_shl_eq_zero _ _ 16 hc)
  rw [hlow]
  have hmod : index % 2 ^ 40 < 2 ^ 40 := Nat.mod_lt _ (by norm_num)
  have hsum : chunk + (index % 2 ^ 40) <<< 16 < 2 ^ 56 := by
    rw [Nat.shiftLeft_eq]
    have := hmod
    omega
  rw [lor_eq_add_of_and_eq_zero _ _ (and_shl_eq_zero _ _ 56 hsum)]
  rw [Nat.shiftLeft_eq, Nat.shiftLeft_eq]

/-- Field extraction: masking with `(2^a - 1) <<< k` and shifting right by `k`
extracts bits `k+a-1 : k`. -/
theorem extract_field (t a k : Nat) :
    (t &&& ((2 ^ a - 1) <<< k)) >>> k = (t >>> k) % 2 ^ a := by
  apply Nat.eq_of_testBit_eq
  intro j
  rw [Nat.testBit_shiftRight, Nat.testBit_and, Nat.testBit_shiftLeft,
    Nat.testBit_mod_two_pow, Nat.testBit_shiftRight,
    Nat.testBit_two_pow_sub_one]
  have h1 : decide (k ≤ k + j) = true := by simp
  rw [h1, Nat.add_sub_cancel_left, Bool.true_and, Bool.and_comm]

/-- Closed form of `deconstruct`: the three masks of the source are
`(2^8-1) <<< 56`, `(2^40-1) <<< 16` and `2^16 - 1`. -/
theorem tileRefDeconstruct_eq (t : Nat) :
    tileRefDeconstruct t = ((t >>> 56) % 2 ^ 8, (t >>> 16) % 2 ^ 40, t % 2 ^ 16) := by
  unfold tileRefDeconstruct
  have h1 : (0xFF00000000000000 : Nat) = (2 ^ 8 - 1) <<< 56 := by decide
  have h2 : (0x00FFFFFFFFFF0000 : Nat) = (2 ^ 40 - 1) <<< 16 := by decide
  have h3 : (0x000000000000FFFF : Nat) = 2 ^ 16 - 1 := by decide
  rw [h1, h2, h3, extract_field, extract_field, Nat.and_pow_two_sub_one_eq_mod]

/-- C1. Key round-trip: for every `size_exponent < 256`, `index < 2^40` and
`chunk < 2^16`, `TileRef::new(Pow2(s), i, c).deconstruct() == (Pow2(s), i, c)`. -/
theorem tileRef_roundtrip (s i c : Nat)
    (hs : s < 256) (hi : i < 2 ^ 40) (hc : c < 2 ^ 16) :
    tileRefDeconstruct (tileRefNew s i c) = (s, i, c) := by
  rw [tileRefDeconstruct_eq, tileRefNew_eq s i c hc,
    Nat.shiftRight_eq_div_pow, Nat.shiftRight_eq_div_pow]
  have h1 : (c + i % 2 ^ 40 * 2 ^ 16 + s * 2 ^ 56) / 2 ^ 56 % 2 ^ 8 = s := by
    have : i % 2 ^ 40 < 2 ^ 40 := Nat.mod_lt _ (by norm_num)
    omega
  have h2 : (c + i % 2 ^ 40 * 2 ^ 16 + s * 2 ^ 56) / 2 ^ 16 % 2 ^ 40 = i := by
    have : i % 2 ^ 40 = i := Nat.mod_eq_of_lt hi
    omega
  have h3 : (c + i % 2 ^ 40 * 2 ^ 16 + s * 2 ^ 56) % 2 ^ 16 = c := by omega
  rw [h1, h2, h3]

/-- C1 witness: the round-trip evaluated at `(s, i, c) = (7, 1099511627775, 65535)`. -/
theorem tileRef_roundtrip_witness :
    tileRefDeconstruct (tileRefNew 7 1099511627775 65535) = (7, 1099511627775, 65535) :=
  tileRef_roundtrip 7 1099511627775 65535 (by norm_num) (by norm_num) (by norm_num)

/-- C2. Bit-exact layout: for every `s < 256`, every `u64` index `i` (including
`i ≥ 2^40`) and every `c < 2^16`, the packed key holds `s` in bits 63:56,
`i mod 2^40` in bits 55:16 and `c` in bits 15:0, fits in 64 bits, and the tile
index wraps modulo `2^40`. -/
theorem tileRef_layout (s i c : Nat)
    (hs : s < 256) (hc : c < 2 ^ 16) :
    tileRefNew s i c = c + (i % 2 ^ 40) * 2 ^ 16 + s * 2 ^ 56 ∧
    (tileRefNew s i c) >>> 56 = s ∧
    ((tileRefNew s i c) >>> 16) % 2 ^ 40 = i % 2 ^ 40 ∧
    (tileRefNew s i c) % 2 ^ 16 = c ∧
    tileRefNew s i c < 2 ^ 64 := by
  have he := tileRefNew_eq s i c hc
  have hm : i % 2 ^ 40 < 2 ^ 40 := Nat.mod_lt _ (by norm_num)
  refine ⟨he, ?_, ?_, ?_, ?_⟩
  · rw [he, Nat.shiftRight_eq_div_pow]; omega
  · rw [he, Nat.shiftRight_eq_div_pow]; omega
  · rw [he]; omega
  · rw [he]; omega

/-- C2 witness: layout facts evaluated at `s = 255`, `i = 2^40 + 5` (an index
above `2^40`, showing the wrap) and `c = 3`; the index field holds `5`. -/
theorem tileRef_layout_witness :
    tileRefNew 255 (2 ^ 40 + 5) 3 = 3 + 5 * 2 ^ 16 + 255 * 2 ^ 56 ∧
    (tileRefNew 255 (2 ^ 40 + 5) 3) >>> 56 = 255 ∧
    ((tileRefNew 255 (2 ^ 40 + 5) 3) >>> 16) % 2 ^ 40 = (2 ^ 40 + 5) % 2 ^ 40 ∧
    (tileRefNew 255 (2 ^ 40 + 5) 3) % 2 ^ 16 = 3 ∧
    tileRefNew 255 (2 ^ 40 + 5) 3 < 2 ^ 64 := by
  have h := tileRef_layout 255 (2 ^ 40 + 5) 3 (by norm_num) (by norm_num)
  refine ⟨?_, h.2.1, h.2.2.1, h.2.2.2.1, h.2.2.2.2⟩
  rw [h.1]
  norm_num

/-! ## Theorems: `Metadata::nearest` (C3, C10) -/

/-- Characterization of the scan: started with accumulator `(fd, fj)` it
returns a pair `(d, j)` that either keeps the accumulator (when no later
distance is strictly smaller) or is the first strict improvement that is
also minimal over the rest of the list. -/
theorem nearestGo_spec (target : Nat) :
    ∀ (ts : List Thumb) (i fd fj : Nat),
      ∃ d j, nearestGo target ts i (Option.some (fd, fj)) = Option.some (d, j) ∧
        ((d = fd ∧ j = fj ∧
            ∀ k, k < ts.length → fd ≤ lzDist target (ts.getD k default).size) ∨
          (∃ k, k < ts.length ∧ j = i + k ∧
            d = lzDist target (ts.getD k default).size ∧ d < fd ∧
            (∀ k2, k2 < ts.length → d ≤ lzDist target (ts.getD k2 default).size) ∧
            (∀ k2, k2 < k → d < lzDist target (ts.getD k2 default).size))) := by
  intro ts
  induction ts with
  | nil =>
    intro i fd fj
    exact ⟨fd, fj, rfl, Or.inl ⟨rfl, rfl, fun k hk => absurd hk (by simp)⟩⟩
  | cons t rest ih =>
    intro i fd fj
    by_cases hlt : lzDist target t.size < fd
    · obtain ⟨d, j, hrun, hcase⟩ := ih (i + 1) (lzDist target t.size) i
      refine ⟨d, j, ?_, ?_⟩
      · simpa [nearestGo, hlt] using hrun
      · rcases hcase with ⟨hd, hj, hall⟩ | ⟨k, hk, hj, hd, hdlt, hall, hfirst⟩
        · refine Or.inr ⟨0, by simp, by omega,
            by simp only [List.getD_cons_zero]; exact hd, by omega, ?_, ?_⟩
          · intro k2 hk2
            match k2 with
            | 0 => simp only [List.getD_cons_zero]; omega
            | k2 + 1 =>
              have := hall k2 (by simp only [List.length_cons] at hk2; omega)
              simp only [List.getD_cons_succ]
              omega
          · intro k2 hk2; omega
        · refine Or.inr ⟨k + 1, by simp only [List.length_cons]; omega, by omega,
            by simp only [List.getD_cons_succ]; exact hd, by omega, ?_, ?_⟩
          · intro k2 hk2
            match k2 with
            | 0 => simp only [List.getD_cons_zero]; omega
            | k2 + 1 =>
              have := hall k2 (by simp only [List.length_cons] at hk2; omega)
              simp only [List.getD_cons_succ]
              omega
          · intro k2 hk2
            match k2 with
            | 0 => simp only [List.getD_cons_zero]; omega
            | k2 + 1 =>
              have := hfirst k2 (by omega)
              simp only [List.getD_cons_succ]
              omega
    · obtain ⟨d, j, hrun, hcase⟩ := ih (i + 1) fd fj
      refine ⟨d, j, ?_, ?_⟩
      · simpa [nearestGo, hlt] using hrun
      · rcases hcase with ⟨hd, hj, hall⟩ | ⟨k, hk, hj, hd, hdlt, hall, hfirst⟩
        · refine Or.inl ⟨hd, hj, ?_⟩
          intro k2 hk2
          match k2 with
          | 0 => simp only [List.getD_cons_zero]; omega
          | k2 + 1 =>
            have := hall k2 (by simp only [List.length_cons] at hk2; omega)
            simp only [List.getD_cons_succ]
            omega
        · refine Or.inr ⟨k + 1, by simp only [List.length_cons]; omega, by omega,
            by simp only [List.getD_cons_succ]; exact hd, by omega, ?_, ?_⟩
          · intro k2 hk2
            match k2 with
            | 0 => simp only [List.getD_cons_zero]; omega
            | k2 + 1 =>
              have := hall k2 (by simp only [List.length_cons] at hk2; omega)
              simp only [List.getD_cons_succ]
              omega
          · intro k2 hk2
            match k2 with
            | 0 => simp only [List.getD_cons_zero]; omega
            | k2 + 1 =>
              have := hfirst k2 (by omega)
              simp only [List.getD_cons_succ]
              omega

/-- `nearest` on a non-empty metadata returns the least index attaining the
minimal leading-zero-count distance. -/
theorem nearest_least_argmin (m : Metadata) (target : Nat)
    (h : m.thumbs ≠ []) :
    ∃ j, m.nearest target = Option.some j ∧ j < m.thumbs.length ∧
      (∀ k, k < m.thumbs.length →
        lzDist target (m.thumbs.getD j default).size ≤
          lzDist target (m.thumbs.getD k default).size) ∧
      (∀ k, k < j →
        lzDist target (m.thumbs.getD j default).size <
          lzDist target (m.thumbs.getD k default).size) := by
  obtain ⟨t, rest, hts⟩ : ∃ t rest, m.thumbs = t :: rest := by
    cases hm : m.thumbs with
    | nil => exact absurd hm h
    | cons t rest => exact ⟨t, rest, rfl⟩
  obtain ⟨d, j, hrun, hcase⟩ := nearestGo_spec target rest 1 (lzDist target t.size) 0
  have hnear : m.nearest target = Option.some j := by
    unfold Metadata.nearest
    rw [hts]
    simp only [nearestGo]
    rw [hrun]
    rfl
  rcases hcase with ⟨hd, hj, hall⟩ | ⟨k, hk, hj, hd, hdlt, hall, hfirst⟩
  · refine ⟨j, hnear, ?_, ?_, ?_⟩
    · rw [hts]; simp only [List.length_cons]; omega
    · intro k2 hk2
      rw [hts] at hk2 ⊢
      subst hj
      match k2 with
      | 0 => simp only [List.getD_cons_zero]; omega
      | k2 + 1 =>
        have := hall k2 (by simp only [List.length_cons] at hk2; omega)
        simp only [List.getD_cons_zero, List.getD_cons_succ]
        omega
    · intro k2 hk2; omega
  · refine ⟨j, hnear, ?_, ?_, ?_⟩
    · rw [hts]; simp only [List.length_cons]; omega
    · intro k2 hk2
      rw [hts] at hk2 ⊢
      have hjget : ((t :: rest).getD j default).size = (rest.getD k default).size := by
        subst hj
        have : 1 + k = k + 1 := by omega
        rw [this, List.getD_cons_succ]
      rw [hjget]
      match k2 with
      | 0 => simp only [List.getD_cons_zero]; omega
      | k2 + 1 =>
        have := hall k2 (by simp only [List.length_cons] at hk2; omega)
        simp only [List.getD_cons_succ]
        omega
    · intro k2 hk2
      rw [hts]
      have hjget : ((t :: rest).getD j default).size = (rest.getD k default).size := by
        subst hj
        have : 1 + k = k + 1 := by omega
        rw [this, List.getD_cons_succ]
      rw [hjget]
      match k2 with
      | 0 => simp only [List.getD_cons_zero]; omega
      | k2 + 1 =>
        have := hfirst k2 (by omega)
        simp only [List.getD_cons_succ]
        omega

/-- C3. `nearest` correctness and tie-break: on any non-empty metadata it
returns an in-range index minimizing the leading-zero-count distance to the
target, strictly beating every earlier index (first minimum wins, never
replacing on an equal distance); concretely, on levels of sizes
`[128, 512, 2048]` and target `1000` it returns index 1 (the 512 level). -/
theorem nearest_minimizes :
    (∀ (m : Metadata) (target : Nat), m.thumbs ≠ [] →
      ∃ j, m.nearest target = Option.some j ∧ j < m.thumbs.length ∧
        (∀ k, k < m.thumbs.length →
          lzDist target (m.thumbs.getD j default).size ≤
            lzDist target (m.thumbs.getD k default).size) ∧
        (∀ k, k < j →
          lzDist target (m.thumbs.getD j default).size <
            lzDist target (m.thumbs.getD k default).size)) ∧
    mLevels.nearest 1000 = Option.some 1 := by
  constructor
  · exact nearest_least_argmin
  · decide

/-- C3 witness: the general part applied to the concrete three-level metadata
at target 300, plus the concrete 1000-target equation. -/
theorem nearest_minimizes_witness :
    (∃ j, mLevels.nearest 300 = Option.some j ∧ j < mLevels.thumbs.length ∧
      (∀ k, k < mLevels.thumbs.length →
        lzDist 300 (mLevels.thumbs.getD j default).size ≤
          lzDist 300 (mLevels.thumbs.getD k default).size) ∧
      (∀ k, k < j →
        lzDist 300 (mLevels.thumbs.getD j default).size <
          lzDist 300 (mLevels.thumbs.getD k default).size)) ∧
    mLevels.nearest 1000 = Option.some 1 :=
  ⟨nearest_minimizes.1 mLevels 300 (by decide), nearest_minimizes.2⟩

/-- C10. Implicit precondition of `nearest`: on a metadata with no levels the
final `found.unwrap()` panics (modelled: the result is `Option.none`), and on
a metadata with at least one level it returns an index strictly below the
number of levels. -/
theorem nearest_defined_iff_nonempty (m : Metadata) (target : Nat) :
    (m.thumbs = [] → m.nearest target = Option.none) ∧
    (m.thumbs ≠ [] →
      ∃ j, m.nearest target = Option.some j ∧ j < m.thumbs.length) := by
  constructor
  · intro h
    unfold Metadata.nearest
    rw [h]
    rfl
  · intro h
    obtain ⟨j, hj, hlen, -, -⟩ := nearest_least_argmin m target h
    exact ⟨j, hj, hlen⟩

/-- C10 witness: the empty metadata panics (returns none); `mLevels` with its
three levels returns an index below 3. -/
theorem nearest_defined_iff_nonempty_witness :
    (⟨[]⟩ : Metadata).nearest 7 = Option.none ∧
    ∃ j, mLevels.nearest 7 = Option.some j ∧ j < mLevels.thumbs.length :=
  ⟨(nearest_defined_iff_nonempty ⟨[]⟩ 7).1 rfl,
    (nearest_defined_iff_nonempty mLevels 7).2 (by decide)⟩

/-! ## Theorems: tile-loop infrastructure -/

/-- Tile loop on the empty ref list: no change, no abort. -/
theorem loadTiles_nil (tiles : Finset Nat) (fuel : Nat) :
    loadTiles tiles fuel [] = (tiles, fuel, false) := rfl

/-- Tile loop skips an already-cached ref without a deadline check. -/
theorem loadTiles_cons_mem (tiles : Finset Nat) (fuel r : Nat) (rs : List Nat)
    (h : r ∈ tiles) : loadTiles tiles fuel (r :: rs) = loadTiles tiles fuel rs := by
  simp [loadTiles, h]

/-- Tile loop aborts on a missing ref when the stopwatch is done. -/
theorem loadTiles_cons_done (tiles : Finset Nat) (r : Nat) (rs : List Nat)
    (h : r ∉ tiles) : loadTiles tiles 0 (r :: rs) = (tiles, 0, true) := by
  simp [loadTiles, h]

/-- Tile loop fetches a missing ref, consuming one unit of budget. -/
theorem loadTiles_cons_fetch (tiles : Finset Nat) (f r : Nat) (rs : List Nat)
    (h : r ∉ tiles) :
    loadTiles tiles (f + 1) (r :: rs) = loadTiles (insert r tiles) f rs := by
  simp [loadTiles, h]

/-- Fetch count of the empty ref list. -/
theorem missingCount_nil (tiles : Finset Nat) : missingCount tiles [] = 0 := rfl

/-- Fetch count ignores an already-cached ref. -/
theorem missingCount_cons_mem (tiles : Finset Nat) (r : Nat) (rs : List Nat)
    (h : r ∈ tiles) : missingCount tiles (r :: rs) = missingCount tiles rs := by
  simp [missingCount, h]

/-- Fetch count counts a missing ref once. -/
theorem missingCount_cons_new (tiles : Finset Nat) (r : Nat) (rs : List Nat)
    (h : r ∉ tiles) :
    missingCount tiles (r :: rs) = missingCount (insert r tiles) rs + 1 := by
  simp [missingCount, h]

/-- Membership after the erase fold of the unload loop: survive iff present
before and not among the erased refs. -/
theorem mem_foldl_erase :
    ∀ (l : List Nat) (s : Finset Nat) (r : Nat),
      (r ∈ l.foldl (fun acc x => acc.erase x) s) ↔ r ∈ s ∧ r ∉ l := by
  intro l
  induction l with
  | nil => intro s r; simp
  | cons x xs ih =>
    intro s r
    simp only [List.foldl_cons, ih, Finset.mem_erase, List.mem_cons]
    constructor
    · rintro ⟨⟨hne, hs⟩, hxs⟩
      exact ⟨hs, by tauto⟩
    · rintro ⟨hs, hn⟩
      exact ⟨⟨by tauto, hs⟩, by tauto⟩

/-- Membership after the unload loop starting at enumeration index `j`:
survive iff present before and absent from the tile refs of every level
other than `new_size`. -/
theorem mem_unloadGo :
    ∀ (ts : List Thumb) (tiles : Finset Nat) (j new_size r : Nat),
      (r ∈ unloadGo tiles ts j new_size) ↔
        r ∈ tiles ∧ ∀ k, k < ts.length → j + k ≠ new_size →
          r ∉ (ts.getD k default).tile_refs := by
  intro ts
  induction ts with
  | nil => intro tiles j ns r; simp [unloadGo]
  | cons t rest ih =>
    intro tiles j ns r
    simp only [unloadGo]
    by_cases hj : j = ns
    · simp only [hj, if_pos rfl, ih]
      constructor
      · rintro ⟨hr, hrest⟩
        refine ⟨hr, ?_⟩
        intro k hk hkne
        match k with
        | 0 => omega
        | k + 1 =>
          have := hrest k (by simp only [List.length_cons] at hk; omega) (by omega)
          simpa only [List.getD_cons_succ] using this
      · rintro ⟨hr, hall⟩
        refine ⟨hr, ?_⟩
        intro k hk hkne
        have := hall (k + 1) (by simp only [List.length_cons]; omega) (by omega)
        simpa only [List.getD_cons_succ] using this
    · simp only [if_neg hj, ih, mem_foldl_erase]
      constructor
      · rintro ⟨⟨hr, hnt⟩, hrest⟩
        refine ⟨hr, ?_⟩
        intro k hk hkne
        match k with
        | 0 => simpa only [List.getD_cons_zero] using hnt
        | k + 1 =>
          have := hrest k (by simp only [List.length_cons] at hk; omega) (by omega)
          simpa only [List.getD_cons_succ] using this
      · rintro ⟨hr, hall⟩
        refine ⟨⟨hr, ?_⟩, ?_⟩
        · have := hall 0 (by simp only [List.length_cons]; omega) (by omega)
          simpa only [List.getD_cons_zero] using this
        · intro k hk hkne
          have := hall (k + 1) (by simp only [List.length_cons]; omega) (by omega)
          simpa only [List.getD_cons_succ] using this

/-- When the remaining budget covers every missing tile, the tile loop
completes: the cache gains exactly the level's refs, the budget drops by the
number of fetches, and no abort happens. -/
theorem loadTiles_complete :
    ∀ (refs : List Nat) (tiles : Finset Nat) (fuel : Nat),
      missingCount tiles refs ≤ fuel →
      loadTiles tiles fuel refs =
        (tiles ∪ refs.toFinset, fuel - missingCount tiles refs, false) := by
  intro refs
  induction refs with
  | nil => intro tiles fuel h; simp [loadTiles_nil, missingCount_nil]
  | cons r rs ih =>
    intro tiles fuel h
    by_cases hr : r ∈ tiles
    · rw [missingCount_cons_mem tiles r rs hr] at h ⊢
      rw [loadTiles_cons_mem tiles fuel r rs hr, ih tiles fuel h]
      have hu : tiles ∪ (r :: rs).toFinset = tiles ∪ rs.toFinset := by
        ext a
        simp only [Finset.mem_union, List.toFinset_cons, Finset.mem_insert,
          List.mem_toFinset]
        constructor
        · rintro (ha | rfl | ha) <;> simp_all
        · rintro (ha | ha) <;> simp_all
      rw [hu]
    · rw [missingCount_cons_new tiles r rs hr] at h ⊢
      match fuel, h with
      | f + 1, h =>
        have hle : missingCount (insert r tiles) rs ≤ f := by omega
        rw [loadTiles_cons_fetch tiles f r rs hr, ih (insert r tiles) f hle]
        have hu : insert r tiles ∪ rs.toFinset = tiles ∪ (r :: rs).toFinset := by
          ext a
          simp only [Finset.mem_union, Finset.mem_insert, List.toFinset_cons,
            List.mem_toFinset]
          tauto
        have hf : f - missingCount (insert r tiles) rs =
            f + 1 - (missingCount (insert r tiles) rs + 1) := by omega
        rw [hu, hf]

/-- When the budget is short, the tile loop aborts with the budget exhausted,
having installed exactly `fuel` new tiles (all from the level's refs); the
number of still-missing tiles drops by exactly the fetches performed. -/
theorem loadTiles_abort :
    ∀ (refs : List Nat) (tiles : Finset Nat) (fuel : Nat),
      fuel < missingCount tiles refs →
      ∃ tiles2, loadTiles tiles fuel refs = (tiles2, 0, true) ∧
        tiles ⊆ tiles2 ∧ tiles2 ⊆ tiles ∪ refs.toFinset ∧
        tiles2.card = tiles.card + fuel ∧
        missingCount tiles2 refs = missingCount tiles refs - fuel := by
  intro refs
  induction refs with
  | nil => intro tiles fuel h; simp [missingCount_nil] at h
  | cons r rs ih =>
    intro tiles fuel h
    by_cases hr : r ∈ tiles
    · rw [missingCount_cons_mem tiles r rs hr] at h
      obtain ⟨tiles2, heq, hsub, hsub2, hcard, hmiss⟩ := ih tiles fuel h
      refine ⟨tiles2, ?_, hsub, ?_, hcard, ?_⟩
      · rw [loadTiles_cons_mem tiles fuel r rs hr, heq]
      · intro a ha
        have := hsub2 ha
        simp only [Finset.mem_union, List.mem_toFinset, List.toFinset_cons,
          Finset.mem_insert] at this ⊢
        tauto
      · rw [missingCount_cons_mem tiles r rs hr,
          missingCount_cons_mem tiles2 r rs (hsub hr), hmiss]
    · rw [missingCount_cons_new tiles r rs hr] at h
      match fuel, h with
      | 0, h =>
        refine ⟨tiles, ?_, Finset.Subset.refl tiles, Finset.subset_union_left,
          by omega, by omega⟩
        rw [loadTiles_cons_done tiles r rs hr]
      | f + 1, h =>
        have hf : f < missingCount (insert r tiles) rs := by omega
        obtain ⟨tiles2, heq, hsub, hsub2, hcard, hmiss⟩ := ih (insert r tiles) f hf
        have hrt2 : r ∈ tiles2 := hsub (Finset.mem_insert_self r tiles)
        refine ⟨tiles2, ?_, ?_, ?_, ?_, ?_⟩
        · rw [loadTiles_cons_fetch tiles f r rs hr, heq]
        · exact fun a ha => hsub (Finset.mem_insert_of_mem ha)
        · intro a ha
          have := hsub2 ha
          simp only [Finset.mem_union, Finset.mem_insert, List.mem_toFinset,
            List.toFinset_cons] at this ⊢
          tauto
        · rw [hcard, Finset.card_insert_of_not_mem hr]
          omega
        · rw [missingCount_cons_mem tiles2 r rs hrt2, hmiss,
            missingCount_cons_new tiles r rs hr]
          omega

/-- Inversion of a successful tile loop from its result. -/
theorem loadTiles_done_inv (refs : List Nat) (tiles tiles2 : Finset Nat)
    (fuel fuel2 : Nat)
    (h : loadTiles tiles fuel refs = (tiles2, fuel2, false)) :
    missingCount tiles refs ≤ fuel ∧ tiles2 = tiles ∪ refs.toFinset ∧
      fuel2 = fuel - missingCount tiles refs := by
  by_cases hm : missingCount tiles refs ≤ fuel
  · have := loadTiles_complete refs tiles fuel hm
    rw [h] at this
    exact ⟨hm, congrArg (fun x => x.1) this, congrArg (fun x => x.2.1) this⟩
  · obtain ⟨t2, heq, -⟩ := loadTiles_abort refs tiles fuel (by omega)
    rw [h] at heq
    exact absurd (congrArg (fun x => x.2.2) heq) (by simp)

/-- Inversion of an aborted tile loop from its result. -/
theorem loadTiles_abort_inv (refs : List Nat) (tiles tiles2 : Finset Nat)
    (fuel fuel2 : Nat)
    (h : loadTiles tiles fuel refs = (tiles2, fuel2, true)) :
    fuel2 = 0 ∧ fuel < missingCount tiles refs ∧ tiles ⊆ tiles2 ∧
      tiles2 ⊆ tiles ∪ refs.toFinset ∧ tiles2.card = tiles.card + fuel ∧
      missingCount tiles2 refs = missingCount tiles refs - fuel := by
  by_cases hm : missingCount tiles refs ≤ fuel
  · have := loadTiles_complete refs tiles fuel hm
    rw [h] at this
    exact absurd (congrArg (fun x => x.2.2) this) (by simp)
  · obtain ⟨t2, heq, hsub, hsub2, hcard, hmiss⟩ :=
      loadTiles_abort refs tiles fuel (by omega)
    rw [h] at heq
    have ht : tiles2 = t2 := congrArg (fun x => x.1) heq
    have hf : fuel2 = 0 := congrArg (fun x => x.2.1) heq
    subst ht
    exact ⟨hf, by omega, hsub, hsub2, hcard, hmiss⟩

/-! ## Theorems: `processImage` inversion and `runBand` stepping -/

/-- Inversion of a completed one-level transition. -/
theorem processImage_stepped_inv (env : LoadEnv) (p : Nat) (images : List Image)
    (tiles : Finset Nat) (fuel i : Nat) (tiles2 : Finset Nat) (fuel2 ns : Nat)
    (h : processImage env p images tiles fuel i =
      Option.some (StepResult.stepped tiles2 fuel2 ns)) :
    ∃ m new_size thumb tl,
      (images.getD i default).metadata = MetadataState.present m ∧
      m.nearest (env.target_size >>> env.shiftAt p i) = Option.some new_size ∧
      new_size ≠ currentSize images i ∧
      ns = stepTowards new_size (currentSize images i) ∧
      m.thumbs[ns]? = Option.some thumb ∧
      loadTiles tiles fuel thumb.tile_refs = (tl, fuel2, false) ∧
      tiles2 = unloadGo tl m.thumbs 0 ns := by
  unfold processImage at h
  split at h
  · exact absurd h (by simp)
  · exact absurd h (by simp)
  case _ metadata hmeta =>
    split at h
    · exact absurd h (by simp)
    case _ new_size hnear =>
      split at h
      · exact absurd h (by simp)
      case _ hne =>
        split at h
        · exact absurd h (by simp)
        case _ thumb hthumb =>
          split at h
          case _ t2 f2 heq =>
            exact absurd h (by simp)
          case _ t2 f2 heq =>
            simp only [Option.some.injEq, StepResult.stepped.injEq] at h
            obtain ⟨h1, h2, h3⟩ := h
            subst h3
            subst h2
            exact ⟨metadata, new_size, thumb, t2, hmeta, hnear, hne, rfl,
              hthumb, heq, h1.symm⟩

/-- Inversion of a deadline abort inside the tile loop of one transition. -/
theorem processImage_deadline_inv (env : LoadEnv) (p : Nat) (images : List Image)
    (tiles : Finset Nat) (fuel i : Nat) (tiles2 : Finset Nat)
    (h : processImage env p images tiles fuel i =
      Option.some (StepResult.deadline tiles2)) :
    ∃ m new_size thumb fuel2,
      (images.getD i default).metadata = MetadataState.present m ∧
      m.nearest (env.target_size >>> env.shiftAt p i) = Option.some new_size ∧
      new_size ≠ currentSize images i ∧
      m.thumbs[stepTowards new_size (currentSize images i)]? = Option.some thumb ∧
      loadTiles tiles fuel thumb.tile_refs = (tiles2, fuel2, true) := by
  unfold processImage at h
  split at h
  · exact absurd h (by simp)
  · exact absurd h (by simp)
  case _ metadata hmeta =>
    split at h
    · exact absurd h (by simp)
    case _ new_size hnear =>
      split at h
      · exact absurd h (by simp)
      case _ hne =>
        split at h
        · exact absurd h (by simp)
        case _ thumb hthumb =>
          split at h
          case _ t2 f2 heq =>
            simp only [Option.some.injEq, StepResult.deadline.injEq] at h
            subst h
            exact ⟨metadata, new_size, thumb, f2, hmeta, hnear, hne, hthumb, heq⟩
          case _ t2 f2 heq =>
            exact absurd h (by simp)

/-- An image whose metadata is `Errored` is dropped by the loop body. -/
theorem processImage_errored (env : LoadEnv) (p : Nat) (images : List Image)
    (tiles : Finset Nat) (fuel i : Nat)
    (h : (images.getD i default).metadata = MetadataState.errored) :
    processImage env p images tiles fuel i = Option.some StepResult.dropped := by
  unfold processImage
  rw [h]

/-- The loop body settles exactly when the target level equals the loaded
level read as `unwrap_or(0)`. -/
theorem processImage_settled_iff (env : LoadEnv) (p : Nat) (images : List Image)
    (tiles : Finset Nat) (fuel i : Nat) (m : Metadata) (t : Nat)
    (hmeta : (images.getD i default).metadata = MetadataState.present m)
    (hnear : m.nearest (env.target_size >>> env.shiftAt p i) = Option.some t) :
    (processImage env p images tiles fuel i = Option.some StepResult.settled ↔
      t = currentSize images i) := by
  unfold processImage
  rw [hmeta]
  simp only [hnear]
  by_cases ht : t = currentSize images i
  · simp [ht]
  · simp only [if_neg ht]
    constructor
    · intro h
      cases hth : m.thumbs[stepTowards t (currentSize images i)]? with
      | none => simp [hth] at h
      | some thumb =>
        rcases hlt : loadTiles tiles fuel thumb.tile_refs with ⟨t2, f2, ab⟩
        cases ab
        · simp [hth, hlt] at h
        · simp [hth, hlt] at h
    · intro h
      exact absurd h ht

/-- Unfolding of one band-loop iteration on a non-empty queue. -/
theorem runBand_cons (env : LoadEnv) (p iters : Nat) (st : LoadState)
    (i : Nat) (rest : List Nat) (hq : st.queue p = i :: rest) :
    runBand env p (iters + 1) st =
      match processImage env p st.images st.tiles st.fuel i with
      | Option.none => Option.none
      | Option.some StepResult.toThumb =>
        runBand env p iters ((st.setQueue p rest).pushThumbBack p i)
      | Option.some StepResult.dropped => runBand env p iters (st.setQueue p rest)
      | Option.some StepResult.settled => runBand env p iters (st.setQueue p rest)
      | Option.some (StepResult.deadline tiles2) =>
        Option.some (RunOut.deadline { st with tiles := tiles2 })
      | Option.some (StepResult.stepped tiles2 fuel2 ns) =>
        runBand env p iters
          { st.setQueue p (rest ++ [i]) with
              images := setSize st.images i ns,
              tiles := tiles2,
              fuel := fuel2,
              log := st.log ++ [(i, ns)] } := by
  conv_lhs => rw [runBand.eq_def]
  simp only [hq]

/-- Unfolding of one band-loop iteration whose dequeued image hits the
deadline: the queue is restored by the `push_front`, only the cache changed,
and the loader returns. -/
theorem runBand_deadline (env : LoadEnv) (p iters : Nat) (st : LoadState)
    (i : Nat) (rest : List Nat) (tiles2 : Finset Nat)
    (hq : st.queue p = i :: rest)
    (hp : processImage env p st.images st.tiles st.fuel i =
      Option.some (StepResult.deadline tiles2)) :
    runBand env p (iters + 1) st =
      Option.some (RunOut.deadline { st with tiles := tiles2 }) := by
  rw [runBand_cons env p iters st i rest hq]
  simp only [hp]

/-- Unfolding of one band-loop iteration whose dequeued image is settled:
dropped from the queue, nothing else changes. -/
theorem runBand_settled (env : LoadEnv) (p iters : Nat) (st : LoadState)
    (i : Nat) (rest : List Nat)
    (hq : st.queue p = i :: rest)
    (hp : processImage env p st.images st.tiles st.fuel i =
      Option.some StepResult.settled) :
    runBand env p (iters + 1) st = runBand env p iters (st.setQueue p rest) := by
  rw [runBand_cons env p iters st i rest hq]
  simp only [hp]

/-- Unfolding of one band-loop iteration whose dequeued image is `Errored`:
dropped from the queue without being requeued anywhere, nothing else
changes. -/
theorem runBand_dropped (env : LoadEnv) (p iters : Nat) (st : LoadState)
    (i : Nat) (rest : List Nat)
    (hq : st.queue p = i :: rest)
    (hp : processImage env p st.images st.tiles st.fuel i =
      Option.some StepResult.dropped) :
    runBand env p (iters + 1) st = runBand env p iters (st.setQueue p rest) := by
  rw [runBand_cons env p iters st i rest hq]
  simp only [hp]

/-! ## Theorems: cache exclusivity (C6) and deadline respect (C7) -/

/-- C6. Cache exclusivity: after any successful (non-deadline-aborted) level
transition for an image whose levels have pairwise-disjoint tile refs (the
claim presupposes this: a shared key cannot be simultaneously present and
absent), the cache holds every tile key of the newly loaded level and no tile
key of any other level of that image. -/
theorem cache_exclusive (env : LoadEnv) (p : Nat) (images : List Image)
    (tiles : Finset Nat) (fuel i : Nat) (m : Metadata)
    (tiles2 : Finset Nat) (fuel2 ns : Nat)
    (hmeta : (images.getD i default).metadata = MetadataState.present m)
    (hdisj : ∀ j, j < m.thumbs.length → ∀ k, k < m.thumbs.length → j ≠ k →
      ∀ r ∈ (m.thumbs.getD j default).tile_refs,
        r ∉ (m.thumbs.getD k default).tile_refs)
    (h : processImage env p images tiles fuel i =
      Option.some (StepResult.stepped tiles2 fuel2 ns)) :
    ns < m.thumbs.length ∧
    (∀ r ∈ (m.thumbs.getD ns default).tile_refs, r ∈ tiles2) ∧
    (∀ j, j < m.thumbs.length → j ≠ ns →
      ∀ r ∈ (m.thumbs.getD j default).tile_refs, r ∉ tiles2) := by
  obtain ⟨m2, new_size, thumb, tl, hmeta2, hnear, hne, hns, hthumb, hload, htiles⟩ :=
    processImage_stepped_inv env p images tiles fuel i tiles2 fuel2 ns h
  rw [hmeta] at hmeta2
  cases hmeta2
  obtain ⟨hlt, hget⟩ := List.getElem?_eq_some_iff.mp hthumb
  have hgetD : m.thumbs.getD ns default = thumb := by
    rw [List.getD_eq_getElem?_getD, hthumb]
    rfl
  obtain ⟨-, htl, -⟩ := loadTiles_done_inv thumb.tile_refs tiles tl fuel fuel2 hload
  refine ⟨hlt, ?_, ?_⟩
  · intro r hr
    rw [hgetD] at hr
    rw [htiles, mem_unloadGo]
    refine ⟨?_, ?_⟩
    · rw [htl]
      exact Finset.mem_union_right tiles (List.mem_toFinset.mpr hr)
    · intro k hk hkne
      have := hdisj ns hlt k hk (by omega) r (by rw [hgetD]; exact hr)
      simpa using this
  · intro j hj hjne r hr
    rw [htiles, mem_unloadGo]
    rintro ⟨-, hall⟩
    exact hall j hj (by omega) hr

/-- C6 witness: one image with the four-level pyramid `m4` (pairwise-disjoint
tile refs), empty cache: the step to level 1 installs exactly tile 11 and
leaves no tile of levels 0, 2, 3 in the cache. -/
theorem cache_exclusive_witness :
    1 < m4.thumbs.length ∧
    (∀ r ∈ (m4.thumbs.getD 1 default).tile_refs, r ∈ ({11} : Finset Nat)) ∧
    (∀ j, j < m4.thumbs.length → j ≠ 1 →
      ∀ r ∈ (m4.thumbs.getD j default).tile_refs, r ∉ ({11} : Finset Nat)) :=
  cache_exclusive env4 0 st4.images ∅ 100 0 m4 {11} 99 1 (by decide)
    (by
      intro j hj k hk hne r hr hrk
      simp only [m4, List.length_cons, List.length_nil] at hj hk
      interval_cases j <;> interval_cases k <;> simp_all [m4])
    (by decide)

/-- C7. Deadline respect and resumption. First: an aborted tile loop has
spent its whole budget (the deadline check precedes every fetch, so exactly
`fuel` tiles were fetched, all of them the level's, and the tile the deadline
hit was not fetched — the still-missing count drops by exactly `fuel`).
Second: rerunning the loop on the same level with a fresh budget skips the
installed tiles and fetches only the remaining ones, completing the level —
resumption, not a restart from tile 0. Third: at the loop level, the
deadline pushes the in-progress image back to the front of its band's queue
(restoring the queue exactly) and returns from the loader immediately, with
the image records — in particular the loaded level — untouched. -/
theorem deadline_respected :
    (∀ (tiles : Finset Nat) (fuel : Nat) (refs : List Nat)
        (tiles2 : Finset Nat) (fuel2 : Nat),
      loadTiles tiles fuel refs = (tiles2, fuel2, true) →
        fuel2 = 0 ∧ fuel < missingCount tiles refs ∧ tiles ⊆ tiles2 ∧
        tiles2 ⊆ tiles ∪ refs.toFinset ∧ tiles2.card = tiles.card + fuel ∧
        missingCount tiles2 refs = missingCount tiles refs - fuel) ∧
    (∀ (tiles : Finset Nat) (fuel : Nat) (refs : List Nat)
        (tiles2 : Finset Nat) (fuel3 : Nat),
      loadTiles tiles fuel refs = (tiles2, 0, true) →
      missingCount tiles refs - fuel ≤ fuel3 →
      loadTiles tiles2 fuel3 refs =
        (tiles ∪ refs.toFinset, fuel3 - (missingCount tiles refs - fuel), false)) ∧
    (∀ (env : LoadEnv) (p iters : Nat) (st : LoadState) (i : Nat)
        (rest : List Nat) (tiles2 : Finset Nat),
      st.queue p = i :: rest →
      processImage env p st.images st.tiles st.fuel i =
        Option.some (StepResult.deadline tiles2) →
      runBand env p (iters + 1) st =
        Option.some (RunOut.deadline { st with tiles := tiles2 })) := by
  refine ⟨?_, ?_, runBand_deadline⟩
  · intro tiles fuel refs tiles2 fuel2 h
    exact loadTiles_abort_inv refs tiles tiles2 fuel fuel2 h
  · intro tiles fuel refs tiles2 fuel3 h hle
    obtain ⟨-, -, hsub, hsub2, -, hmiss⟩ :=
      loadTiles_abort_inv refs tiles tiles2 fuel 0 h
    have hcomp := loadTiles_complete refs tiles2 fuel3 (by omega)
    have hu : tiles2 ∪ refs.toFinset = tiles ∪ refs.toFinset := by
      apply Finset.Subset.antisymm
      · exact Finset.union_subset
          (hsub2.trans (Finset.union_subset_union_right (Finset.Subset.refl _)))
          Finset.subset_union_right
      · exact Finset.union_subset_union_left hsub
    rw [hcomp, hu, hmiss]

/-- C7 witness: budget 1 on refs `[5, 6]` from an empty cache aborts after
fetching tile 5 only; resuming with budget 5 skips tile 5, fetches tile 6 and
completes; and `st7` (expired stopwatch) is pushed back to the front of its
queue with the loader returning at once. -/
theorem deadline_respected_witness :
    ((0 : Nat) = 0 ∧ 1 < missingCount ∅ [5, 6] ∧
      (∅ : Finset Nat) ⊆ {5} ∧ ({5} : Finset Nat) ⊆ ∅ ∪ [5, 6].toFinset ∧
      ({5} : Finset Nat).card = (∅ : Finset Nat).card + 1 ∧
      missingCount {5} [5, 6] = missingCount ∅ [5, 6] - 1) ∧
    loadTiles {5} 5 [5, 6] =
      (∅ ∪ [5, 6].toFinset, 5 - (missingCount ∅ [5, 6] - 1), false) ∧
    runBand env4 0 (4 + 1) st7 =
      Option.some (RunOut.deadline { st7 with tiles := ∅ }) :=
  ⟨deadline_respected.1 ∅ 1 [5, 6] {5} 0 (by decide),
    deadline_respected.2.1 ∅ 1 [5, 6] {5} 5 (by decide) (by decide),
    deadline_respected.2.2 env4 0 4 st7 0 [] ∅ (by decide) (by decide)⟩

/-! ## Theorems: progressive stepping (C4) and absent-level comparison (C5) -/

/-- C4 counterexample: one image with no loaded level and a target 3 levels
above (`m4.nearest 8 = 3`): a SINGLE `load_cache` call with unlimited budget
takes the image from no loaded level to level 3, performing three one-step
transitions within that one pass (the image is requeued to the back of the
same band queue and reprocessed in the same call) — refuting both "the loaded
level changes by at most one step per scheduling pass" and "exactly 3
scheduling passes are required". -/
theorem progressive_pass_cex :
    (st4.images.getD 0 default).size = Option.none ∧
    m4.nearest env4.target_size = Option.some 3 ∧
    runFinalSize (loadCache env4 10 st4) = Option.some (Option.some 3) ∧
    runLog (loadCache env4 10 st4) = Option.some [(0, 1), (0, 2), (0, 3)] := by
  decide

/-- C4 (amended). The one-step bound holds per DEQUEUE, not per `load_cache`
call: every completed transition moves the loaded level (read as
`unwrap_or(0)`) by exactly one, and starting from no loaded level with a
target 3 levels above, a single unlimited-budget `load_cache` call reaches
the target through exactly three one-step transitions of that image. -/
theorem progressive_stepping_amended :
    (∀ (env : LoadEnv) (p : Nat) (images : List Image) (tiles : Finset Nat)
        (fuel i : Nat) (tiles2 : Finset Nat) (fuel2 ns : Nat),
      processImage env p images tiles fuel i =
        Option.some (StepResult.stepped tiles2 fuel2 ns) →
      ns = currentSize images i + 1 ∨ ns + 1 = currentSize images i) ∧
    runFinalSize (loadCache env4 10 st4) = Option.some (Option.some 3) ∧
    runLog (loadCache env4 10 st4) = Option.some [(0, 1), (0, 2), (0, 3)] := by
  refine ⟨?_, by decide, by decide⟩
  intro env p images tiles fuel i tiles2 fuel2 ns h
  obtain ⟨m, new_size, thumb, tl, -, -, hne, hns, -, -, -⟩ :=
    processImage_stepped_inv env p images tiles fuel i tiles2 fuel2 ns h
  unfold stepTowards at hns
  by_cases hlt : new_size < currentSize images i
  · rw [if_pos hlt] at hns
    right
    omega
  · rw [if_neg hlt] at hns
    left
    omega

/-- C4 witness for the amended claim: the step of `st4` from no loaded level
lands on level 1 (= `unwrap_or(0) + 1`), and the concrete single-pass run. -/
theorem progressive_stepping_amended_witness :
    (1 = currentSize st4.images 0 + 1 ∨ 1 + 1 = currentSize st4.images 0) ∧
    runFinalSize (loadCache env4 10 st4) = Option.some (Option.some 3) ∧
    runLog (loadCache env4 10 st4) = Option.some [(0, 1), (0, 2), (0, 3)] :=
  ⟨progressive_stepping_amended.1 env4 0 st4.images ∅ 100 0 {11} 99 1 (by decide),
    progressive_stepping_amended.2⟩

/-- C5 counterexample: an image with `Present` metadata, nothing loaded, and
target level index 0 (`m5.nearest 1 = 0`): the comparison
`nearest == size.unwrap_or(0)` yields EQUAL, so the loader settles the image
(`continue`) without performing any load step — the queue is drained, no tile
is loaded, `size` stays `None` — refuting "for any target level index
(including the lowest level, index 0) the comparison yields different and the
loader performs a load step". -/
theorem absent_level_cex :
    (st5.images.getD 0 default).size = Option.none ∧
    m5.nearest env5.target_size = Option.some 0 ∧
    processImage env5 0 st5.images st5.tiles st5.fuel 0 =
      Option.some StepResult.settled ∧
    runBand env5 0 2 st5 = Option.some (RunOut.ok { st5 with cache0 := [] }) := by
  decide

/-- C5 (amended). The loader treats an absent loaded level as level 0 (the
lowest), not as below it: an image with `Present` metadata is settled exactly
when the target level equals `size.unwrap_or(0)`; in particular, with no
loaded level and target level 0 the image is settled without loading
anything, and only a target differing from the loaded-or-0 level triggers a
load step. -/
theorem absent_level_amended :
    ∀ (env : LoadEnv) (p : Nat) (images : List Image) (tiles : Finset Nat)
      (fuel i : Nat) (m : Metadata) (t : Nat),
      (images.getD i default).metadata = MetadataState.present m →
      m.nearest (env.target_size >>> env.shiftAt p i) = Option.some t →
      ((processImage env p images tiles fuel i =
          Option.some StepResult.settled ↔ t = currentSize images i) ∧
        ((images.getD i default).size = Option.none → t = 0 →
          processImage env p images tiles fuel i =
            Option.some StepResult.settled)) := by
  intro env p images tiles fuel i m t hmeta hnear
  have hiff := processImage_settled_iff env p images tiles fuel i m t hmeta hnear
  refine ⟨hiff, ?_⟩
  intro hnone ht
  apply hiff.mpr
  unfold currentSize
  rw [hnone, ht]
  rfl

/-- C5 witness for the amended claim: the settled-iff equivalence and the
settle-without-loading consequence evaluated on `st5` (target level 0,
nothing loaded). -/
theorem absent_level_amended_witness :
    ((processImage env5 0 st5.images st5.tiles st5.fuel 0 =
        Option.some StepResult.settled ↔ 0 = currentSize st5.images 0) ∧
      ((st5.images.getD 0 default).size = Option.none → 0 = 0 →
        processImage env5 0 st5.images st5.tiles st5.fuel 0 =
          Option.some StepResult.settled)) :=
  absent_level_amended env5 0 st5.images st5.tiles st5.fuel 0 m5 0
    (by decide) (by decide)

/-! ## Theorems: thumbnail admission (C8) -/

/-- `make_thumb` never changes the pool size. -/
theorem makeThumb_threads (st : ThumbState) (i : Nat) :
    (makeThumb st i).thumb_threads = st.thumb_threads := by
  unfold makeThumb
  split
  · rfl
  · split <;> rfl

/-- `make_thumb` adds at most one outstanding job. -/
theorem makeThumb_card (st : ThumbState) (i : Nat) :
    (makeThumb st i).thumb_handles.card ≤ st.thumb_handles.card + 1 := by
  unfold makeThumb
  split
  · omega
  · split
    · omega
    · exact Finset.card_insert_le i st.thumb_handles

/-- The band loop of `make_thumbs` never changes the pool size. -/
theorem makeThumbsGo_threads :
    ∀ (q : List Nat) (st : ThumbState),
      ((makeThumbsGo st q).1).thumb_threads = st.thumb_threads := by
  intro q
  induction q with
  | nil => intro st; rfl
  | cons i rest ih =>
    intro st
    unfold makeThumbsGo
    split
    · rfl
    · rw [ih (makeThumb st i), makeThumb_threads]

/-- The band loop of `make_thumbs` preserves the `pool_size + 1` bound on
outstanding jobs: the cap check runs before each dequeue, so at most one job
enters past the pool size. -/
theorem makeThumbsGo_cap :
    ∀ (q : List Nat) (st : ThumbState),
      st.thumb_handles.card ≤ st.thumb_threads + 1 →
      ((makeThumbsGo st q).1).thumb_handles.card ≤ st.thumb_threads + 1 := by
  intro q
  induction q with
  | nil => intro st h; exact h
  | cons i rest ih =>
    intro st h
    unfold makeThumbsGo
    split
    · exact h
    case _ hcap =>
      have hc : st.thumb_handles.card ≤ st.thumb_threads := by omega
      have h2 : (makeThumb st i).thumb_handles.card ≤
          (makeThumb st i).thumb_threads + 1 := by
        rw [makeThumb_threads]
        have := makeThumb_card st i
        omega
      have := ih (makeThumb st i) h2
      rw [makeThumb_threads] at this
      exact this

/-- `make_thumbs` (both bands) preserves the `pool_size + 1` bound. -/
theorem makeThumbs_cap (st : ThumbState)
    (h : st.thumb_handles.card ≤ st.thumb_threads + 1) :
    (makeThumbs st).thumb_handles.card ≤ st.thumb_threads + 1 := by
  unfold makeThumbs
  rcases heq : makeThumbsGo st st.thumb0 with ⟨st1, q0, early⟩
  have h1 : st1.thumb_handles.card ≤ st.thumb_threads + 1 := by
    have h0 := makeThumbsGo_cap st.thumb0 st h
    rw [heq] at h0
    exact h0
  have ht1 : st1.thumb_threads = st.thumb_threads := by
    have h0 := makeThumbsGo_threads st.thumb0 st
    rw [heq] at h0
    exact h0
  cases early
  · rcases heq2 : makeThumbsGo { st1 with thumb0 := q0 } st1.thumb1 with ⟨st2, q1, e2⟩
    have hpre : ({ st1 with thumb0 := q0 } : ThumbState).thumb_handles.card ≤
        ({ st1 with thumb0 := q0 } : ThumbState).thumb_threads + 1 := by
      show st1.thumb_handles.card ≤ st1.thumb_threads + 1
      omega
    have hcap2 : st2.thumb_handles.card ≤ st1.thumb_threads + 1 := by
      have h0 := makeThumbsGo_cap st1.thumb1 { st1 with thumb0 := q0 } hpre
      rw [heq2] at h0
      exact h0
    simp only [heq2]
    omega
  · show st1.thumb_handles.card ≤ st.thumb_threads + 1
    exact h1

/-- C8. Thumbnail dedup and admission cap: submitting an index whose job is
already in the outstanding-job map leaves the pipeline state unchanged (no
second job is spawned — the ghost spawn log does not grow, and the map keeps
exactly one entry for that index); and since the `len > pool_size` check runs
before each dequeue, a `make_thumbs` pass keeps the number of outstanding
jobs at or below `pool_size + 1`. -/
theorem thumb_dedup_cap :
    (∀ (st : ThumbState) (i : Nat), i ∈ st.thumb_handles → makeThumb st i = st) ∧
    (∀ st : ThumbState, st.thumb_handles.card ≤ st.thumb_threads + 1 →
      (makeThumbs st).thumb_handles.card ≤ st.thumb_threads + 1) := by
  constructor
  · intro st i hi
    simp [makeThumb, hi]
  · exact makeThumbs_cap

/-- C8 witness: pool size 1 with job 0 outstanding — resubmitting index 0
changes nothing, and a full `make_thumbs` pass over queue `[0, 1]` keeps at
most 2 outstanding jobs. -/
theorem thumb_dedup_cap_witness :
    makeThumb ts8 0 = ts8 ∧
    (makeThumbs ts8).thumb_handles.card ≤ ts8.thumb_threads + 1 :=
  ⟨thumb_dedup_cap.1 ts8 0 (by decide), thumb_dedup_cap.2 ts8 (by decide)⟩

/-! ## Theorems: thumbnail completion handling (C9) -/

/-- `push_front` prepends to the band it targets. -/
theorem pushFront_queue_self (st : RecvState) (b i : Nat) :
    (st.pushFront b i).queue b = i :: st.queue b := by
  unfold RecvState.pushFront RecvState.queue
  by_cases hb : b = 0 <;> simp [hb]

/-- `push_front` only ever prepends to a band's queue. -/
theorem pushFront_queue (st : RecvState) (b2 i b : Nat) :
    ∃ l, (st.pushFront b2 i).queue b = l ++ st.queue b := by
  by_cases hb2 : b2 = 0
  · by_cases hb : b = 0
    · exact ⟨[i], by simp [RecvState.pushFront, RecvState.queue, hb2, hb]⟩
    · exact ⟨[], by simp [RecvState.pushFront, RecvState.queue, hb2, hb]⟩
  · by_cases hb : b = 0
    · exact ⟨[], by simp [RecvState.pushFront, RecvState.queue, hb2, hb]⟩
    · exact ⟨[i], by simp [RecvState.pushFront, RecvState.queue, hb2, hb]⟩

/-- `push_front` never touches the image records. -/
theorem pushFront_images (st : RecvState) (b i : Nat) :
    (st.pushFront b i).images = st.images := by
  unfold RecvState.pushFront
  split <;> rfl

/-- Polling one handle only ever prepends to a band's queue. -/
theorem recvApply_queue (pri : Nat → Nat) (st : RecvState) (h : Nat × JobPoll)
    (b : Nat) : ∃ l, (recvApply pri st h).queue b = l ++ st.queue b := by
  rcases h with ⟨i, s⟩
  cases s with
  | pending => exact ⟨[], rfl⟩
  | ok m =>
    obtain ⟨l, hl⟩ := pushFront_queue
      { st with images := setMetadata st.images i (MetadataState.present m) }
      (pri i) i b
    exact ⟨l, hl⟩
  | failed => exact ⟨[], rfl⟩

/-- Polling one handle preserves the number of image records. -/
theorem recvApply_images_length (pri : Nat → Nat) (st : RecvState)
    (h : Nat × JobPoll) :
    (recvApply pri st h).images.length = st.images.length := by
  rcases h with ⟨i, s⟩
  cases s with
  | pending => rfl
  | ok m =>
    show ((RecvState.pushFront
      { st with images := setMetadata st.images i (MetadataState.present m) }
      (pri i) i).images).length = st.images.length
    rw [pushFront_images]
    show (setMetadata st.images i (MetadataState.present m)).length =
      st.images.length
    unfold setMetadata
    simp
  | failed =>
    show (setMetadata st.images i MetadataState.errored).length =
      st.images.length
    unfold setMetadata
    simp

/-- Polling one handle leaves every other image record untouched. -/
theorem recvApply_getD_ne (pri : Nat → Nat) (st : RecvState) (h : Nat × JobPoll)
    (j : Nat) (hne : h.1 ≠ j) :
    (recvApply pri st h).images.getD j default = st.images.getD j default := by
  rcases h with ⟨i, s⟩
  simp only at hne
  cases s with
  | pending => rfl
  | ok m =>
    show ((RecvState.pushFront
      { st with images := setMetadata st.images i (MetadataState.present m) }
      (pri i) i).images).getD j default = st.images.getD j default
    rw [pushFront_images]
    show (setMetadata st.images i (MetadataState.present m)).getD j default =
      st.images.getD j default
    unfold setMetadata
    rw [List.getD_eq_getElem?_getD, List.getElem?_set_ne hne,
      ← List.getD_eq_getElem?_getD]
  | failed =>
    show (setMetadata st.images i MetadataState.errored).getD j default =
      st.images.getD j default
    unfold setMetadata
    rw [List.getD_eq_getElem?_getD, List.getElem?_set_ne hne,
      ← List.getD_eq_getElem?_getD]

/-- The polling fold only ever prepends to a band's queue. -/
theorem recvFold_queue (pri : Nat → Nat) :
    ∀ (hs : List (Nat × JobPoll)) (st : RecvState) (b : Nat),
      ∃ l, (hs.foldl (recvApply pri) st).queue b = l ++ st.queue b := by
  intro hs
  induction hs with
  | nil => intro st b; exact ⟨[], rfl⟩
  | cons h rest ih =>
    intro st b
    obtain ⟨l1, hl1⟩ := recvApply_queue pri st h b
    obtain ⟨l2, hl2⟩ := ih (recvApply pri st h) b
    exact ⟨l2 ++ l1, by rw [List.foldl_cons, hl2, hl1, List.append_assoc]⟩

/-- The polling fold preserves the number of image records. -/
theorem recvFold_length (pri : Nat → Nat) :
    ∀ (hs : List (Nat × JobPoll)) (st : RecvState),
      (hs.foldl (recvApply pri) st).images.length = st.images.length := by
  intro hs
  induction hs with
  | nil => intro st; rfl
  | cons h rest ih =>
    intro st
    rw [List.foldl_cons, ih, recvApply_images_length]

/-- The polling fold leaves an image untouched when no handle keys it. -/
theorem recvFold_getD_not_mem (pri : Nat → Nat) :
    ∀ (hs : List (Nat × JobPoll)) (st : RecvState) (j : Nat),
      j ∉ hs.map Prod.fst →
      (hs.foldl (recvApply pri) st).images.getD j default =
        st.images.getD j default := by
  intro hs
  induction hs with
  | nil => intro st j hj; rfl
  | cons h rest ih =>
    intro st j hj
    rw [List.map_cons, List.mem_cons] at hj
    push_neg at hj
    rw [List.foldl_cons, ih (recvApply pri st h) j hj.2,
      recvApply_getD_ne pri st h j (Ne.symm hj.1)]

/-- A polled successful job installs its metadata (keeping the loaded-level
field), and its image index lands in the prefix newly prepended to its
priority band. -/
theorem recvFold_ok (pri : Nat → Nat) :
    ∀ (hs : List (Nat × JobPoll)) (st : RecvState) (i : Nat) (m : Metadata),
      (hs.map Prod.fst).Nodup → (i, JobPoll.ok m) ∈ hs → i < st.images.length →
      ((hs.foldl (recvApply pri) st).images.getD i default).metadata =
          MetadataState.present m ∧
        ((hs.foldl (recvApply pri) st).images.getD i default).size =
          (st.images.getD i default).size ∧
        ∃ l, (hs.foldl (recvApply pri) st).queue (pri i) =
          l ++ st.queue (pri i) ∧ i ∈ l := by
  intro hs
  induction hs with
  | nil => intro st i m hnd hmem hlen; simp at hmem
  | cons h rest ih =>
    intro st i m hnd hmem hlen
    rw [List.map_cons, List.nodup_cons] at hnd
    obtain ⟨hnotin, hndrest⟩ := hnd
    rw [List.mem_cons] at hmem
    rcases hmem with hmem | hmem
    · subst hmem
      have hst2img : (recvApply pri st (i, JobPoll.ok m)).images.getD i default =
          { metadata := MetadataState.present m,
            size := (st.images.getD i default).size } := by
        show ((RecvState.pushFront
          { st with images := setMetadata st.images i (MetadataState.present m) }
          (pri i) i).images).getD i default =
          { metadata := MetadataState.present m,
            size := (st.images.getD i default).size }
        rw [pushFront_images]
        show (setMetadata st.images i (MetadataState.present m)).getD i default =
          { metadata := MetadataState.present m,
            size := (st.images.getD i default).size }
        unfold setMetadata
        rw [List.getD_eq_getElem?_getD, List.getElem?_set_self hlen]
        rfl
      have hpres := recvFold_getD_not_mem pri rest
        (recvApply pri st (i, JobPoll.ok m)) i (by simpa using hnotin)
      refine ⟨?_, ?_, ?_⟩
      · rw [List.foldl_cons, hpres, hst2img]
      · rw [List.foldl_cons, hpres, hst2img]
      · obtain ⟨l2, hl2⟩ := recvFold_queue pri rest
          (recvApply pri st (i, JobPoll.ok m)) (pri i)
        have hq2 : (recvApply pri st (i, JobPoll.ok m)).queue (pri i) =
            i :: st.queue (pri i) := by
          show (RecvState.pushFront
            { st with images := setMetadata st.images i (MetadataState.present m) }
            (pri i) i).queue (pri i) = i :: st.queue (pri i)
          rw [pushFront_queue_self]
          rfl
        refine ⟨l2 ++ [i], ?_, by simp⟩
        rw [List.foldl_cons, hl2, hq2]
        simp
    · have hne : h.1 ≠ i := by
        intro he
        apply hnotin
        rw [he]
        have : (i, JobPoll.ok m).1 ∈ rest.map Prod.fst :=
          List.mem_map_of_mem Prod.fst hmem
        simpa using this
      have hlen2 : i < (recvApply pri st h).images.length := by
        rw [recvApply_images_length]; exact hlen
      obtain ⟨h1, h2, l, hl, hil⟩ := ih (recvApply pri st h) i m hndrest hmem hlen2
      have hgd := recvApply_getD_ne pri st h i hne
      refine ⟨by rw [List.foldl_cons]; exact h1, ?_, ?_⟩
      · rw [List.foldl_cons, h2, hgd]
      · obtain ⟨l1, hl1⟩ := recvApply_queue pri st h (pri i)
        refine ⟨l ++ l1, ?_, by simp [hil]⟩
        rw [List.foldl_cons, hl, hl1, List.append_assoc]

/-- A polled failed job marks its image `Errored`. -/
theorem recvFold_failed (pri : Nat → Nat) :
    ∀ (hs : List (Nat × JobPoll)) (st : RecvState) (i : Nat),
      (hs.map Prod.fst).Nodup → (i, JobPoll.failed) ∈ hs →
      i < st.images.length →
      ((hs.foldl (recvApply pri) st).images.getD i default).metadata =
        MetadataState.errored := by
  intro hs
  induction hs with
  | nil => intro st i hnd hmem hlen; simp at hmem
  | cons h rest ih =>
    intro st i hnd hmem hlen
    rw [List.map_cons, List.nodup_cons] at hnd
    obtain ⟨hnotin, hndrest⟩ := hnd
    rw [List.mem_cons] at hmem
    rcases hmem with hmem | hmem
    · subst hmem
      have hst2img : ((recvApply pri st (i, JobPoll.failed)).images.getD i
          default).metadata = MetadataState.errored := by
        show ((setMetadata st.images i MetadataState.errored).getD i
          default).metadata = _
        unfold setMetadata
        rw [List.getD_eq_getElem?_getD, List.getElem?_set_self hlen]
        rfl
      have hpres := recvFold_getD_not_mem pri rest
        (recvApply pri st (i, JobPoll.failed)) i (by simpa using hnotin)
      rw [List.foldl_cons, hpres, hst2img]
    · have hne : h.1 ≠ i := by
        intro he
        apply hnotin
        rw [he]
        have : (i, JobPoll.failed).1 ∈ rest.map Prod.fst :=
          List.mem_map_of_mem Prod.fst hmem
        simpa using this
      have hlen2 : i < (recvApply pri st h).images.length := by
        rw [recvApply_images_length]; exact hlen
      rw [List.foldl_cons]
      exact ih (recvApply pri st h) i hndrest hmem hlen2

/-- A still-pending job leaves its image untouched. -/
theorem recvFold_pending (pri : Nat → Nat) :
    ∀ (hs : List (Nat × JobPoll)) (st : RecvState) (i : Nat),
      (hs.map Prod.fst).Nodup → (i, JobPoll.pending) ∈ hs →
      (hs.foldl (recvApply pri) st).images.getD i default =
        st.images.getD i default := by
  intro hs
  induction hs with
  | nil => intro st i hnd hmem; simp at hmem
  | cons h rest ih =>
    intro st i hnd hmem
    rw [List.map_cons, List.nodup_cons] at hnd
    obtain ⟨hnotin, hndrest⟩ := hnd
    rw [List.mem_cons] at hmem
    rcases hmem with hmem | hmem
    · subst hmem
      have hpres := recvFold_getD_not_mem pri rest
        (recvApply pri st (i, JobPoll.pending)) i (by simpa using hnotin)
      rw [List.foldl_cons, hpres]
      rfl
    · have hne : h.1 ≠ i := by
        intro he
        apply hnotin
        rw [he]
        have : (i, JobPoll.pending).1 ∈ rest.map Prod.fst :=
          List.mem_map_of_mem Prod.fst hmem
        simpa using this
      rw [List.foldl_cons, ih (recvApply pri st h) i hndrest hmem,
        recvApply_getD_ne pri st h i hne]

/-- C9. Thumbnail completion handling: one `recv_thumbs` tick removes every
completed job from the outstanding map (keeping exactly the pending ones); a
successful job makes its image `Present` (loaded level untouched) and pushes
its index onto the front segment of its cache-load priority band; a failed
job makes its image `Errored`; pending jobs leave their images untouched.
Once `Errored`, the scheduler never touches the image again: the cache loader
drops it from its queue without requeuing it anywhere, and `make_thumb`
refuses to resubmit it. -/
theorem recv_completion :
    (∀ (pri : Nat → Nat) (st : RecvState),
      (recvThumbs pri st).handles =
        st.handles.filter (fun h => h.2 == JobPoll.pending)) ∧
    (∀ (pri : Nat → Nat) (st : RecvState) (i : Nat) (m : Metadata),
      (st.handles.map Prod.fst).Nodup → (i, JobPoll.ok m) ∈ st.handles →
      i < st.images.length →
      ((recvThumbs pri st).images.getD i default).metadata =
          MetadataState.present m ∧
        ((recvThumbs pri st).images.getD i default).size =
          (st.images.getD i default).size ∧
        ∃ l, (recvThumbs pri st).queue (pri i) = l ++ st.queue (pri i) ∧ i ∈ l) ∧
    (∀ (pri : Nat → Nat) (st : RecvState) (i : Nat),
      (st.handles.map Prod.fst).Nodup → (i, JobPoll.failed) ∈ st.handles →
      i < st.images.length →
      ((recvThumbs pri st).images.getD i default).metadata =
        MetadataState.errored) ∧
    (∀ (pri : Nat → Nat) (st : RecvState) (i : Nat),
      (st.handles.map Prod.fst).Nodup → (i, JobPoll.pending) ∈ st.handles →
      (recvThumbs pri st).images.getD i default = st.images.getD i default) ∧
    (∀ (env : LoadEnv) (p iters : Nat) (stl : LoadState) (i : Nat)
        (rest : List Nat),
      stl.queue p = i :: rest →
      (stl.images.getD i default).metadata = MetadataState.errored →
      runBand env p (iters + 1) stl = runBand env p iters (stl.setQueue p rest)) ∧
    (∀ (st : ThumbState) (i : Nat),
      (st.images.getD i default).metadata = MetadataState.errored →
      makeThumb st i = st) := by
  refine ⟨fun pri st => rfl, ?_, ?_, ?_, ?_, ?_⟩
  · intro pri st i m hnd hmem hlen
    exact recvFold_ok pri st.handles st i m hnd hmem hlen
  · intro pri st i hnd hmem hlen
    exact recvFold_failed pri st.handles st i hnd hmem hlen
  · intro pri st i hnd hmem
    exact recvFold_pending pri st.handles st i hnd hmem
  · intro env p iters stl i rest hq hmeta
    exact runBand_dropped env p iters stl i rest hq
      (processImage_errored env p stl.images stl.tiles stl.fuel i hmeta)
  · intro st i hmeta
    unfold makeThumb
    rw [if_pos (by rw [hmeta]; exact fun hc => MetadataState.noConfusion hc)]

/-- C9 witness: on `rs9` (jobs: 0 succeeded with `m5`, 1 failed, 2 pending)
every part evaluated concretely, plus the errored image of `st9` dropped by
the cache loader and refused by `make_thumb` on `ts9`. -/
theorem recv_completion_witness :
    (recvThumbs (fun _ => 0) rs9).handles =
        rs9.handles.filter (fun h => h.2 == JobPoll.pending) ∧
    (((recvThumbs (fun _ => 0) rs9).images.getD 0 default).metadata =
        MetadataState.present m5 ∧
      ((recvThumbs (fun _ => 0) rs9).images.getD 0 default).size =
        (rs9.images.getD 0 default).size ∧
      ∃ l, (recvThumbs (fun _ => 0) rs9).queue 0 = l ++ rs9.queue 0 ∧ 0 ∈ l) ∧
    ((recvThumbs (fun _ => 0) rs9).images.getD 1 default).metadata =
      MetadataState.errored ∧
    (recvThumbs (fun _ => 0) rs9).images.getD 2 default =
      rs9.images.getD 2 default ∧
    runBand env5 (0 : Nat) (3 + 1) st9 = runBand env5 0 3 (st9.setQueue 0 []) ∧
    makeThumb ts9 0 = ts9 :=
  ⟨recv_completion.1 (fun _ => 0) rs9,
    recv_completion.2.1 (fun _ => 0) rs9 0 m5 (by decide) (by decide) (by decide),
    recv_completion.2.2.1 (fun _ => 0) rs9 1 (by decide) (by decide) (by decide),
    recv_completion.2.2.2.1 (fun _ => 0) rs9 2 (by decide) (by decide),
    recv_completion.2.2.2.2.1 env5 0 3 st9 0 [] (by decide) (by decide),
    recv_completion.2.2.2.2.2 ts9 0 (by decide)⟩

end Pix
